import Mathlib

set_option linter.unusedVariables false

/-!
Shallow embedding of the KoNekoD/dotenv loader (package `dotenv`,
file `pkg/dotenv/dotenv.go`).

Buffers are modelled as lists of runes (`List Char`); the per-file
key/value map and the process variable store are insertion-ordered
association lists.  File-system access is abstracted as a function from
a path to an `FSResult`, mirroring the three outcomes `os.Open`/`io.Copy`
can produce in `readFile` (not-found, other open error, read error) plus
success with the file's contents.

The source's general-recursive loops (`getStatementStart`'s comment
skipping, `readFile`'s statement loop, and the scan of
`regexp.ReplaceAllStringFunc`) are embedded with an explicit fuel
argument that is instantiated with `length + 1` at the entry points;
fuel-sufficiency lemmas below prove the fuel never runs out, so the
embedded functions agree with the unbounded loops of the source.
-/

/-- Fixed whitespace set of the source's `isSpace`: tab, vertical tab,
form feed, carriage return, space, U+0085, U+00A0. -/
def isSpace (r : Char) : Bool :=
  r = '\t' || r = Char.ofNat 0x0B || r = Char.ofNat 0x0C || r = '\r' ||
  r = ' ' || r = Char.ofNat 0x85 || r = Char.ofNat 0xA0

/-- Line-end set of the source's `isLineEnd`: newline or carriage return. -/
def isLineEnd (r : Char) : Bool :=
  r = '\n' || r = '\r'

/-- Go's `unicode.IsSpace`: the Unicode White_Space property
(code points 9-13, 32, 0x85, 0xA0, 0x1680, 0x2000-0x200A, 0x2028,
0x2029, 0x202F, 0x205F, 0x3000). Used by `indexOfNonSpaceChar` and by
the trailing trim of key names. -/
def goIsSpaceUnicode (c : Char) : Bool :=
  (0x09 ≤ c.toNat && c.toNat ≤ 0x0D) || c.toNat = 0x20 || c.toNat = 0x85 ||
  c.toNat = 0xA0 || c.toNat = 0x1680 ||
  (0x2000 ≤ c.toNat && c.toNat ≤ 0x200A) || c.toNat = 0x2028 ||
  c.toNat = 0x2029 || c.toNat = 0x202F || c.toNat = 0x205F ||
  c.toNat = 0x3000

/-- Go's `unicode.IsLetter` on the Latin-1 range.  `locateKeyName` in the
source iterates over raw bytes and converts each single byte to a rune
(`rune(char)`), so only code points below 0x100 ever reach this
predicate there; this table is exact on that range. -/
def goIsLetter (c : Char) : Bool :=
  ('A' ≤ c && c ≤ 'Z') || ('a' ≤ c && c ≤ 'z') ||
  c.toNat = 0xAA || c.toNat = 0xB5 || c.toNat = 0xBA ||
  (0xC0 ≤ c.toNat && c.toNat ≤ 0xD6) ||
  (0xD8 ≤ c.toNat && c.toNat ≤ 0xF6) ||
  (0xF8 ≤ c.toNat && c.toNat ≤ 0xFF)

/-- Go's `unicode.IsNumber` on the Latin-1 range (see `goIsLetter` for
why that range is the operative one in `locateKeyName`). -/
def goIsNumber (c : Char) : Bool :=
  ('0' ≤ c && c ≤ '9') ||
  c.toNat = 0xB2 || c.toNat = 0xB3 || c.toNat = 0xB9 ||
  c.toNat = 0xBC || c.toNat = 0xBD || c.toNat = 0xBE

/-- Index of the first element satisfying `p` (the embedding of
`bytes.IndexFunc`; `none` plays the role of the -1 result). -/
def findIdxOrNone (p : Char → Bool) : List Char → Option Nat
  | [] => none
  | c :: cs => if p c then some 0 else (findIdxOrNone p cs).map (· + 1)

/-- Embedding of `strings.TrimLeftFunc` / `bytes.TrimLeftFunc`. -/
def trimLeftF (p : Char → Bool) (l : List Char) : List Char :=
  l.dropWhile p

/-- Embedding of `strings.TrimRightFunc` / `bytes.TrimRightFunc`. -/
def trimRightF (p : Char → Bool) (l : List Char) : List Char :=
  (l.reverse.dropWhile p).reverse

/-- Embedding of `strings.TrimFunc` (trim both ends). -/
def trimBothF (p : Char → Bool) (l : List Char) : List Char :=
  trimRightF p (trimLeftF p l)

/-- Per-file key/value map and the process variable store: an
insertion-ordered association list from name to value. -/
def KVMap : Type := List (List Char × List Char)

instance : DecidableEq KVMap := by
  unfold KVMap
  infer_instance

/-- First-match lookup in an association list. -/
def envLookup : KVMap → List Char → Option (List Char)
  | [], _ => none
  | (k', v) :: rest, k => if k' = k then some v else envLookup rest k

/-- Read with the empty string as default: Go's map read `m[k]` and
`os.Getenv` both yield `""` for an absent name. -/
def mapGet (m : KVMap) (k : List Char) : List Char :=
  (envLookup m k).getD []

/-- Overwrite-or-append update: Go's map assignment `m[k] = v` and
`os.Setenv`. -/
def mapSet : KVMap → List Char → List Char → KVMap
  | [], k, v => [(k, v)]
  | (k', v') :: rest, k, v =>
    if k' = k then (k, v) :: rest else (k', v') :: mapSet rest k v

/-- Parse and I/O errors of the source, one constructor per
`errors.New` / `fmt.Errorf` site (plus the propagated I/O errors). -/
inductive Err
  | unexpectedChar (c : Char) (near : List Char)
  | zeroLength
  | unterminatedQuote (text : List Char)
  | ioError (msg : String)
deriving DecidableEq

deriving instance DecidableEq for Except

/-- Result of opening and reading one file, as distinguished by
`readFile`: not found (not an error), a different open error, an
`io.Copy` error, or the file's contents. -/
inductive FSResult
  | notFound
  | openError (msg : String)
  | readError (msg : String)
  | ok (content : List Char)
deriving DecidableEq

/-- The file system, abstracted: a map from path to outcome. -/
def FS : Type := List Char → FSResult

/-- Embedding of `indexOfNonSpaceChar`: index of the first rune that is
not Unicode whitespace (note: `unicode.IsSpace`, not the fixed
`isSpace` set). -/
def indexOfNonSpaceChar (src : List Char) : Option Nat :=
  findIdxOrNone (fun r => !goIsSpaceUnicode r) src

/-- Fuel-indexed embedding of `getStatementStart`: skip leading Unicode
whitespace; a leading `#` skips to the next newline and recurses
(the newline is re-scanned as whitespace).  Each recursive step drops
at least one character, so `length + 1` fuel suffices
(`gssF_fuel_irrelevant` below). -/
def gssF : Nat → List Char → Option (List Char)
  | 0, _ => none
  | fuel + 1, src =>
    match indexOfNonSpaceChar src with
    | none => none
    | some pos =>
      let src' := src.drop pos
      if src'.head? = some '#' then
        match findIdxOrNone (fun r => r = '\n') src' with
        | none => none
        | some pos2 => gssF fuel (src'.drop pos2)
      else some src'

/-- Embedding of `getStatementStart` (entry point with sufficient fuel). -/
def getStatementStart (src : List Char) : Option (List Char) :=
  gssF (src.length + 1) src

/-- The literal token `export` stripped by `locateKeyName`. -/
def exportToken : List Char := "export".data

/-- Key-scanning loop of `locateKeyName`: `full` is the whole statement
remainder (Go ranges over its bytes), `rest` the part not yet scanned,
`i` the current index.  Whitespace from the fixed set is skipped in
place; `=` or `:` ends the key; `_`, `.`, letters and numbers are
accepted; anything else is a fatal error.  Returns the key slice and
the offset just past the separator (both stay at their zero values
when the scan runs off the end). -/
def keyScan (full : List Char) : List Char → Nat → Except Err (List Char × Nat)
  | [], _ => .ok ([], 0)
  | c :: cs, i =>
    if isSpace c then keyScan full cs (i + 1)
    else if c = '=' || c = ':' then .ok (full.take i, i + 1)
    else if c = '_' then keyScan full cs (i + 1)
    else if goIsLetter c || goIsNumber c || c = '.' then keyScan full cs (i + 1)
    else .error (.unexpectedChar c full)

/-- Export-stripping step of `locateKeyName`: after the leading trim,
drop a literal `export` only when whitespace follows it. -/
def stripExport (src1 : List Char) : List Char :=
  if src1.take 6 = exportToken then
    match src1.drop 6 with
    | t :: ts => if isSpace t then trimLeftF isSpace (t :: ts) else src1
    | [] => src1
  else src1

/-- Key-scanning tail of `locateKeyName`: run the scan loop, reject the
empty statement, and return the trailing-trimmed key together with the
remainder after the separator with leading whitespace trimmed. -/
def locateKeyTail (src : List Char) : Except Err (List Char × List Char) :=
  match keyScan src src 0 with
  | .error e => .error e
  | .ok (key, offset) =>
    if src.length = 0 then .error .zeroLength
    else .ok (trimRightF goIsSpaceUnicode key, trimLeftF isSpace (src.drop offset))

/-- Embedding of `locateKeyName`: trim leading fixed-set whitespace,
strip a leading `export ` token (only when whitespace follows it), scan
the key. -/
def locateKeyName (src0 : List Char) : Except Err (List Char × List Char) :=
  locateKeyTail (stripExport (trimLeftF isSpace src0))

/-- First pass of `expandEscapes`: the replacement for regex `\\.`
(a backslash followed by any rune except newline): `\n` and `\r`
decode to the control characters, any other pair is kept as the two
literal characters.  A backslash not starting a match (at end of input
or before a newline) is copied and scanning continues at the next
character. -/
def escPass1 : List Char → List Char
  | [] => []
  | '\\' :: c :: rest =>
    if c = '\n' then '\\' :: escPass1 (c :: rest)
    else if c = 'n' then '\n' :: escPass1 rest
    else if c = 'r' then '\r' :: escPass1 rest
    else '\\' :: c :: escPass1 rest
  | c :: rest => c :: escPass1 rest

/-- Second pass of `expandEscapes`: the replacement of regex `\\([^$])`
by `$1` (a negated class matches newline): the backslash before any
non-dollar character is removed.  A backslash before `$` or at end of
input is copied and scanning continues at the next character. -/
def escPass2 : List Char → List Char
  | [] => []
  | '\\' :: c :: rest =>
    if c = '$' then '\\' :: escPass2 (c :: rest)
    else c :: escPass2 rest
  | c :: rest => c :: escPass2 rest

/-- Embedding of `expandEscapes`: the two regex replacement passes in
source order. -/
def expandEscapes (s : List Char) : List Char :=
  escPass2 (escPass1 s)

/-- Name characters of the expansion regex group `([A-Z0-9_]+)`. -/
def isVarNameChar (c : Char) : Bool :=
  ('A' ≤ c && c ≤ 'Z') || ('0' ≤ c && c ≤ '9') || c = '_'

/-- Consume one optional literal character (one `X?` quantifier of the
expansion regex, which is greedy: the literal is taken whenever it is
next). -/
def optTok (c : Char) (cs : List Char) : Bool × List Char :=
  match cs with
  | c0 :: t => if c0 = c then (true, t) else (false, cs)
  | [] => (false, cs)

/-- Greedy match of the part of the expansion regex after the `$`:
optional `(`, optional opening brace, optional run of name characters,
optional closing brace.  Returns (paren group present, name group,
consumed text, remainder).  Every quantifier of the source regex
`(\\)?(\$)(\()?\{?([A-Z0-9_]+)?\}?` is greedy and nothing after the
`$` can fail, so this deterministic scan is the regex's leftmost-first
match. -/
def matchVarAfter (cs : List Char) : Bool × List Char × List Char × List Char :=
  let p1 := optTok '(' cs
  let p2 := optTok (Char.ofNat 0x7B) p1.2
  let name := p2.2.takeWhile isVarNameChar
  let cs3 := p2.2.dropWhile isVarNameChar
  let p4 := optTok (Char.ofNat 0x7D) cs3
  let consumed :=
    (if p1.1 then ['('] else []) ++ (if p2.1 then [Char.ofNat 0x7B] else []) ++
    name ++ (if p4.1 then [Char.ofNat 0x7D] else [])
  (p1.1, name, consumed, p4.2)

/-- Match of the expansion regex `(\\)?(\$)(\()?\{?([A-Z0-9_]+)?\}?` at
the start of `src`: (backslash group present, paren group present, name
group, whole matched text, remainder after the match).  A backslash not
followed by `$` matches neither with nor without the optional
backslash group, so there is no match at that position. -/
def matchVar (src : List Char) : Option (Bool × Bool × List Char × List Char × List Char) :=
  match src with
  | [] => none
  | c1 :: rest1 =>
    if c1 = '\\' then
      match rest1 with
      | [] => none
      | c2 :: cs =>
        if c2 = '$' then
          let r := matchVarAfter cs
          some (true, r.1, r.2.1, '\\' :: '$' :: r.2.2.1, r.2.2.2)
        else none
    else if c1 = '$' then
      let r := matchVarAfter rest1
      some (false, r.1, r.2.1, '$' :: r.2.2.1, r.2.2.2)
    else none

/-- Fuel-indexed embedding of `expandVariables`'s
`ReplaceAllStringFunc` scan.  At each position the regex either matches
(the callback's replacement is emitted and scanning continues after the
match) or the character is copied.  The source callback tests
`submatch[1] == "\\" || submatch[2] == "("`; `submatch[2]` is the
`(\$)` group and always equals `"$"`, so the second disjunct is dead
code, embedded verbatim as `sub2 = ['(']`. -/
def expandVarsF : Nat → List Char → KVMap → List Char
  | 0, src, _ => src
  | fuel + 1, src, m =>
    match src with
    | [] => []
    | c :: cs =>
      match matchVar (c :: cs) with
      | none => c :: expandVarsF fuel cs m
      | some (bs, paren, name, matched, rest) =>
        let sub2 : List Char := ['$']
        (if bs = true ∨ sub2 = ['('] then matched.drop 1
         else if name = [] then matched
         else mapGet m name) ++ expandVarsF fuel rest m

/-- Embedding of `expandVariables` (entry point with sufficient fuel:
every match consumes at least the `$`). -/
def expandVariables (v : List Char) (m : KVMap) : List Char :=
  expandVarsF (v.length + 1) v m

/-- Embedding of `hasQuotePrefix`-style quote detection: the opening
quote character when the value starts with a single or double quote. -/
def hasQuoteMark : List Char → Option Char
  | c :: _ => if c = '"' || c = '\'' then some c else none
  | [] => none

/-- Scan for the closing quote from index 1 (source loop `for i := 1`):
the first index `i ≥ 1` whose character equals the quote and whose
predecessor is not a backslash. -/
def findClosingAux (quote : Char) : Char → List Char → Nat → Option Nat
  | _, [], _ => none
  | prev, c :: cs, i =>
    if c = quote ∧ prev ≠ '\\' then some i
    else findClosingAux quote c cs (i + 1)

/-- Position of the unescaped closing quote in a value starting with a
quote character. -/
def findClosing (quote : Char) : List Char → Option Nat
  | [] => none
  | c0 :: rest => findClosingAux quote c0 rest 1

/-- Backward scan of the unquoted-value branch: starting from the line
end, find the rightmost `#` that is not at position 0 and is preceded
by a fixed-set whitespace character; the value ends there.  `j + 1` is
the number of positions still to inspect (indices `0..j`). -/
def commentCutoff (line : List Char) : Nat → Nat
  | 0 => line.length
  | j + 1 =>
    if line.getD j ' ' = '#' ∧ j ≠ 0 ∧ isSpace (line.getD (j - 1) ' ') = true then j
    else commentCutoff line j

/-- Unquoted branch of `extractVarValue` once the line end position is
known: strip a trailing inline comment, trim fixed-set whitespace from
both ends, expand variables; the remainder starts at the line-end
character itself. -/
def extractUnquoted (src : List Char) (endOfLine : Nat) (vars : KVMap) :
    Except Err (List Char × List Char) :=
  let line := src.take endOfLine
  if line.length = 0 then .ok ([], src.drop endOfLine)
  else
    let endOfVar := commentCutoff line line.length
    let trimmed := trimBothF isSpace (line.take endOfVar)
    .ok (expandVariables trimmed vars, src.drop endOfLine)

/-- Embedding of `extractVarValue`: unquoted values run to the line end
(or end of buffer); quoted values run to the matching unescaped quote,
double-quoted ones being escape-decoded and expanded, single-quoted
ones taken verbatim; a missing closing quote is a fatal error carrying
the text up to the next newline. -/
def extractVarValue (src : List Char) (vars : KVMap) :
    Except Err (List Char × List Char) :=
  match hasQuoteMark src with
  | none =>
    match findIdxOrNone isLineEnd src with
    | none =>
      if src.length = 0 then .ok ([], [])
      else extractUnquoted src src.length vars
    | some endOfLine => extractUnquoted src endOfLine vars
  | some quote =>
    match findClosing quote src with
    | some i =>
      let inner := trimLeftF (fun v => v = quote) (trimRightF (fun v => v = quote) (src.take i))
      let value := if quote = '"' then expandVariables (expandEscapes inner) vars else inner
      .ok (value, src.drop (i + 1))
    | none =>
      let valEnd := match findIdxOrNone (fun v => v = '\n') src with
        | none => src.length
        | some k => k
      .error (.unterminatedQuote (src.take valEnd))

/-- Fuel-indexed embedding of `readFile`'s statement loop: find the
next statement, lex the key, extract the value using the map built so
far as expansion context, insert, repeat.  A lexer or extractor error
stops the loop, returning the partially built map together with the
error.  Each iteration consumes at least one character
(`parseLoopF_fuel_irrelevant` below), so `length + 1` fuel suffices. -/
def parseLoopF : Nat → List Char → KVMap → KVMap × Option Err
  | 0, _, out => (out, none)
  | fuel + 1, cutset, out =>
    match getStatementStart cutset with
    | none => (out, none)
    | some stmt =>
      match locateKeyName stmt with
      | .error e => (out, some e)
      | .ok (key, left) =>
        match extractVarValue left out with
        | .error e => (out, some e)
        | .ok (value, rest) => parseLoopF fuel rest (mapSet out key value)

/-- Statement loop of `readFile` (entry point with sufficient fuel). -/
def parseLoop (src : List Char) (out : KVMap) : KVMap × Option Err :=
  parseLoopF (src.length + 1) src out

/-- Embedding of `bytes.Replace(src, "\r\n", "\n", -1)`. -/
def normalizeNewlines : List Char → List Char
  | '\r' :: '\n' :: rest => '\n' :: normalizeNewlines rest
  | c :: rest => c :: normalizeNewlines rest
  | [] => []

/-- Embedding of `readFile`: a missing file yields an empty map and no
error; any other open or read failure is returned as the error; on
success the contents are newline-normalized and parsed. -/
def readFile (fs : FS) (filename : List Char) : KVMap × Option Err :=
  match fs filename with
  | .notFound => ([], none)
  | .openError e => ([], some (.ioError e))
  | .readError e => ([], some (.ioError e))
  | .ok content => parseLoop (normalizeNewlines content) []

/-- The fixed environment-name key (source variable `EnvKey`). -/
def EnvKey : List Char := "APP_ENV".data

/-- The default environment name (source variable `DefaultEnv`). -/
def DefaultEnv : List Char := "dev".data

/-- Embedding of `appEnv`: read `EnvKey` from the store; when the value
is empty (absent or set to the empty string), write the default back
and use it. -/
def appEnv (s : KVMap) : List Char × KVMap :=
  let env := mapGet s EnvKey
  if env = [] then (DefaultEnv, mapSet s EnvKey DefaultEnv) else (env, s)

/-- Merge one parsed layer into the store: every key of the layer map
is written unless its name was in the pre-load snapshot `orig`
(`slices.Contains(originalVarNames, k)`). -/
def mergeLayer (orig : List (List Char)) : KVMap → KVMap → KVMap
  | [], s => s
  | (k, v) :: rest, s =>
    mergeLayer orig rest (if k ∈ orig then s else mapSet s k v)

/-- One iteration of `LoadEnv`'s layer loop: read and parse one file;
an error returns the store unchanged together with that error (the
partially parsed map of the failing file is discarded), success merges
the layer. -/
def mergeStep (orig : List (List Char)) (fs : FS) (path : List Char) (s : KVMap) :
    KVMap × Option Err :=
  match readFile fs path with
  | (_, some e) => (s, some e)
  | (m, none) => (mergeLayer orig m s, none)

/-- Layers three and four of `LoadEnv`.  The environment name of each
path is produced by calling `appEnv` on the store as it stands when the
path is built (the source builds the paths with lazily evaluated
closures calling `appEnv()`), including its write-back side effect. -/
def loadEnvFrom3 (fs : FS) (p : List Char) (orig : List (List Char)) (s2 : KVMap) :
    KVMap × Option Err :=
  let ae := appEnv s2
  match mergeStep orig fs (p ++ ".".data ++ ae.1) ae.2 with
  | (s, some e) => (s, some e)
  | (s3, none) =>
    let ae4 := appEnv s3
    mergeStep orig fs (p ++ ".".data ++ ae4.1 ++ ".local".data) ae4.2

/-- Body of `LoadEnv` for a fixed base path: snapshot the variable
names, then process the four layers in order, stopping at the first
error. -/
def loadEnvWith (p : List Char) (fs : FS) (s0 : KVMap) : KVMap × Option Err :=
  let orig := s0.map Prod.fst
  match mergeStep orig fs p s0 with
  | (s, some e) => (s, some e)
  | (s1, none) =>
    match mergeStep orig fs (p ++ ".local".data) s1 with
    | (s, some e) => (s, some e)
    | (s2, none) => loadEnvFrom3 fs p orig s2

/-- Embedding of `LoadEnv`: any number of path arguments other than
exactly one collapses to the default `.env`. -/
def loadEnv (path : List (List Char)) (fs : FS) (s0 : KVMap) : KVMap × Option Err :=
  loadEnvWith (match path with | [x] => x | _ => ".env".data) fs s0

/-! Basic facts about the character classes and list helpers. -/

theorem isSpace_unicode {c : Char} (h : isSpace c = true) : goIsSpaceUnicode c = true := by
  simp only [isSpace, Bool.or_eq_true, decide_eq_true_eq] at h
  rcases h with ((((((h | h) | h) | h) | h) | h) | h) <;> subst h <;> decide

theorem isLineEnd_unicode {c : Char} (h : isLineEnd c = true) : goIsSpaceUnicode c = true := by
  simp only [isLineEnd, Bool.or_eq_true, decide_eq_true_eq] at h
  rcases h with h | h <;> subst h <;> decide

theorem findIdxOrNone_some {p : Char → Bool} :
    ∀ {l : List Char} {n : Nat}, findIdxOrNone p l = some n →
      ∃ c cs, l.drop n = c :: cs ∧ p c = true := by
  intro l
  induction l with
  | nil => intro n h; simp [findIdxOrNone] at h
  | cons c cs ih =>
    intro n h
    by_cases hc : p c
    · simp [findIdxOrNone, hc] at h
      subst h
      exact ⟨c, cs, rfl, hc⟩
    · simp [findIdxOrNone, hc] at h
      obtain ⟨m, hm, rfl⟩ := h
      obtain ⟨d, ds, hd, hpd⟩ := ih hm
      exact ⟨d, ds, by simpa using hd, hpd⟩

theorem findIdxOrNone_cons_neg {p : Char → Bool} {c : Char} {cs : List Char}
    (h : p c = false) :
    findIdxOrNone p (c :: cs) = (findIdxOrNone p cs).map (· + 1) := by
  simp [findIdxOrNone, h]

theorem findIdxOrNone_pos {p : Char → Bool} {c : Char} {cs : List Char}
    {n : Nat} (h : findIdxOrNone p (c :: cs) = some n) (hc : p c = false) :
    1 ≤ n := by
  rw [findIdxOrNone_cons_neg hc] at h
  simp at h
  obtain ⟨m, hm, hn⟩ := h
  omega

theorem dropWhile_length_le (p : Char → Bool) (l : List Char) :
    (l.dropWhile p).length ≤ l.length :=
  (List.dropWhile_sublist p).length_le

theorem dropWhile_cons_neg {p : Char → Bool} {c : Char} {cs : List Char}
    (h : p c = false) : (c :: cs).dropWhile p = c :: cs := by
  simp [List.dropWhile_cons, h]

theorem trimLeftF_length_le (p : Char → Bool) (l : List Char) :
    (trimLeftF p l).length ≤ l.length :=
  dropWhile_length_le p l

theorem mem_trimRightF {p : Char → Bool} {c : Char} {l : List Char}
    (h : c ∈ trimRightF p l) : c ∈ l := by
  unfold trimRightF at h
  rw [List.mem_reverse] at h
  exact List.mem_reverse.mp ((List.dropWhile_sublist p).mem h)

/-! Facts about the association-list store. -/

theorem envLookup_mapSet_self (m : KVMap) (k v : List Char) :
    envLookup (mapSet m k v) k = some v := by
  induction m with
  | nil => simp [mapSet, envLookup]
  | cons kv rest ih =>
    obtain ⟨k', v'⟩ := kv
    by_cases h : k' = k
    · subst h
      simp [mapSet, envLookup]
    · simp [mapSet, envLookup, h, ih]

theorem envLookup_mapSet_ne {k k' : List Char} (m : KVMap) (v : List Char)
    (h : k' ≠ k) : envLookup (mapSet m k v) k' = envLookup m k' := by
  have hk : k ≠ k' := Ne.symm h
  induction m with
  | nil => simp [mapSet, envLookup, hk]
  | cons kv rest ih =>
    obtain ⟨k0, v0⟩ := kv
    by_cases h0 : k0 = k
    · subst h0
      simp [mapSet, envLookup, hk]
    · by_cases h1 : k0 = k'
      · subst h1
        simp [mapSet, h0, envLookup]
      · simp [mapSet, h0, envLookup, h1, ih]

theorem envLookup_not_mem {m : KVMap} {k : List Char}
    (h : k ∉ m.map Prod.fst) : envLookup m k = none := by
  induction m with
  | nil => rfl
  | cons kv rest ih =>
    obtain ⟨k0, v0⟩ := kv
    simp only [List.map_cons, List.mem_cons] at h
    push_neg at h
    simp [envLookup, Ne.symm h.1, ih h.2]

theorem mapSet_keys_sub {m : KVMap} {k v x : List Char}
    (h : x ∈ (mapSet m k v).map Prod.fst) : x = k ∨ x ∈ m.map Prod.fst := by
  induction m with
  | nil => simpa [mapSet] using h
  | cons kv rest ih =>
    obtain ⟨k0, v0⟩ := kv
    by_cases h0 : k0 = k
    · subst h0
      rcases (by simpa [mapSet] using h : x = k0 ∨ x ∈ rest.map Prod.fst) with h1 | h1
      · exact Or.inl h1
      · exact Or.inr (by simp [h1])
    · rcases (by simpa [mapSet, h0] using h : x = k0 ∨ x ∈ (mapSet rest k v).map Prod.fst)
        with h1 | h1
      · exact Or.inr (by simp [h1])
      · rcases ih h1 with h2 | h2
        · exact Or.inl h2
        · exact Or.inr (by simp [h2])

theorem mapSet_keys_nodup {m : KVMap} {k v : List Char}
    (h : (m.map Prod.fst).Nodup) : ((mapSet m k v).map Prod.fst).Nodup := by
  induction m with
  | nil => simp [mapSet]
  | cons kv rest ih =>
    obtain ⟨k0, v0⟩ := kv
    simp only [List.map_cons, List.nodup_cons] at h
    by_cases h0 : k0 = k
    · subst h0
      simpa [mapSet] using h
    · simp only [mapSet, if_neg h0, List.map_cons, List.nodup_cons]
      refine ⟨?_, ih h.2⟩
      intro hmem
      rcases mapSet_keys_sub hmem with h1 | h1
      · exact h0 h1
      · exact h.1 h1

/-! Facts about the Scanner: every returned statement is a non-empty
suffix starting with a non-whitespace character, and the fuel of the
embedding is irrelevant as soon as it exceeds the buffer length. -/

theorem gssF_shape :
    ∀ {fuel : Nat} {src stmt : List Char}, gssF fuel src = some stmt →
      (∃ c cs, stmt = c :: cs ∧ goIsSpaceUnicode c = false) ∧
        stmt.length ≤ src.length := by
  intro fuel
  induction fuel with
  | zero => intro src stmt h; simp [gssF] at h
  | succ n ih =>
    intro src stmt h
    rw [gssF] at h
    rcases hfi : indexOfNonSpaceChar src with _ | pos
    · rw [hfi] at h; exact absurd h (by simp)
    · rw [hfi] at h
      obtain ⟨c, cs, hdrop, hpc⟩ := findIdxOrNone_some hfi
      simp only at h
      by_cases hcomment : (src.drop pos).head? = some '#'
      · rw [if_pos hcomment] at h
        rcases hfi2 : findIdxOrNone (fun r => r = '\n') (src.drop pos) with _ | pos2
        · rw [hfi2] at h; exact absurd h (by simp)
        · rw [hfi2] at h
          obtain ⟨hshape, hlen⟩ := ih h
          refine ⟨hshape, hlen.trans ?_⟩
          rw [List.length_drop, List.length_drop]
          omega
      · rw [if_neg hcomment] at h
        obtain rfl := Option.some.inj h
        refine ⟨⟨c, cs, hdrop, by simpa using hpc⟩, ?_⟩
        rw [List.length_drop]; omega

theorem gssF_comment_progress {l : List Char} {pos2 : Nat}
    (hcomment : l.head? = some '#')
    (hfi2 : findIdxOrNone (fun r => r = '\n') l = some pos2) :
    (l.drop pos2).length < l.length := by
  rcases l with _ | ⟨c, cs⟩
  · simp at hcomment
  · simp only [List.head?_cons] at hcomment
    obtain rfl := Option.some.inj hcomment
    have hpos2 : 1 ≤ pos2 := findIdxOrNone_pos hfi2 (by decide)
    simp only [List.length_drop, List.length_cons]
    omega

theorem gssF_fuel_irrelevant :
    ∀ {fuel fuel' : Nat} {src : List Char}, src.length < fuel →
      src.length < fuel' → gssF fuel src = gssF fuel' src := by
  intro fuel
  induction fuel with
  | zero => intro fuel' src h _; omega
  | succ n ih =>
    intro fuel' src h h'
    rcases fuel' with _ | m
    · omega
    · rw [gssF, gssF]
      rcases hfi : indexOfNonSpaceChar src with _ | pos
      · rfl
      · dsimp only
        by_cases hcomment : (src.drop pos).head? = some '#'
        · rw [if_pos hcomment, if_pos hcomment]
          rcases hfi2 : findIdxOrNone (fun r => r = '\n') (src.drop pos) with _ | pos2
          · rfl
          · dsimp only
            have hlt : ((src.drop pos).drop pos2).length < src.length := by
              have h1 := gssF_comment_progress hcomment hfi2
              have h2 : (src.drop pos).length ≤ src.length := by
                rw [List.length_drop]; omega
              omega
            exact ih (by omega) (by omega)
        · rw [if_neg hcomment, if_neg hcomment]

theorem getStatementStart_eq_gssF {fuel : Nat} {src : List Char}
    (h : src.length < fuel) : getStatementStart src = gssF fuel src :=
  gssF_fuel_irrelevant (by omega) h

theorem getStatementStart_shape {src stmt : List Char}
    (h : getStatementStart src = some stmt) :
    (∃ c cs, stmt = c :: cs ∧ goIsSpaceUnicode c = false) ∧
      stmt.length ≤ src.length :=
  gssF_shape h

/-! Progress facts for the key lexer and the value extractor: a parse
iteration always consumes at least one character of the statement. -/

theorem keyScan_offset {full : List Char} :
    ∀ {rest : List Char} {i : Nat} {k : List Char} {off : Nat},
      keyScan full rest i = .ok (k, off) → off = 0 ∨ 1 ≤ off := by
  intro rest
  induction rest with
  | nil =>
    intro i k off h
    simp only [keyScan] at h
    obtain ⟨_, h2⟩ := Prod.mk.injEq .. ▸ Except.ok.inj h
    omega
  | cons c cs ih =>
    intro i k off h
    rw [keyScan] at h
    by_cases h1 : isSpace c
    · exact ih (by rwa [if_pos h1] at h)
    · rw [if_neg h1] at h
      by_cases h2 : (c = '=' || c = ':') = true
      · rw [if_pos h2] at h
        obtain ⟨_, hoff⟩ := Prod.mk.injEq .. ▸ Except.ok.inj h
        omega
      · rw [if_neg h2] at h
        by_cases h3 : c = '_'
        · exact ih (by rwa [if_pos h3] at h)
        · rw [if_neg h3] at h
          by_cases h4 : (goIsLetter c || goIsNumber c || c = '.') = true
          · exact ih (by rwa [if_pos h4] at h)
          · rw [if_neg h4] at h
            exact absurd h (by simp)

theorem dropWhile_idem (p : Char → Bool) :
    ∀ l : List Char, (l.dropWhile p).dropWhile p = l.dropWhile p
  | [] => rfl
  | c :: cs => by
    by_cases h : p c
    · simp [List.dropWhile_cons, h, dropWhile_idem p cs]
    · simp [List.dropWhile_cons, h]

theorem locateKeyTail_progress {src k left : List Char}
    (hsp : trimLeftF isSpace src = src)
    (h : locateKeyTail src = .ok (k, left)) :
    left.length < src.length ∨ left = src := by
  rw [locateKeyTail] at h
  rcases hks : keyScan src src 0 with e | ⟨key, off⟩
  · rw [hks] at h; exact absurd h (by simp)
  · rw [hks] at h
    dsimp only at h
    by_cases hlen : src.length = 0
    · rw [if_pos hlen] at h; exact absurd h (by simp)
    · rw [if_neg hlen] at h
      obtain ⟨-, hleft⟩ := Prod.mk.injEq .. ▸ Except.ok.inj h
      rcases keyScan_offset hks with h0 | h1
      · subst h0
        right
        rw [← hleft, List.drop_zero, hsp]
      · left
        rw [← hleft]
        calc (trimLeftF isSpace (src.drop off)).length
            ≤ (src.drop off).length := trimLeftF_length_le _ _
          _ = src.length - off := List.length_drop off src
          _ < src.length := by omega

theorem locateKeyName_progress {c : Char} {cs k left : List Char}
    (hsp : isSpace c = false)
    (h : locateKeyName (c :: cs) = .ok (k, left)) :
    left.length < (c :: cs).length ∨ left = c :: cs := by
  have htrim : trimLeftF isSpace (c :: cs) = c :: cs := dropWhile_cons_neg hsp
  rw [locateKeyName, htrim] at h
  rw [stripExport] at h
  by_cases hexp : (c :: cs).take 6 = exportToken
  · rw [if_pos hexp] at h
    have hlen6 : 6 ≤ (c :: cs).length := by
      have h1 := congrArg List.length hexp
      rw [List.length_take] at h1
      have h2 : exportToken.length = 6 := by decide
      rw [h2] at h1
      omega
    rcases hd : (c :: cs).drop 6 with _ | ⟨t, ts⟩
    · rw [hd] at h
      dsimp only at h
      rcases locateKeyTail_progress htrim h with h1 | h1
      · exact Or.inl h1
      · exact Or.inr h1
    · rw [hd] at h
      dsimp only at h
      by_cases hst : isSpace t
      · rw [if_pos hst] at h
        -- the statement shrank by the export token: any result is shorter
        have hs2 : trimLeftF isSpace (trimLeftF isSpace (t :: ts)) =
            trimLeftF isSpace (t :: ts) := dropWhile_idem isSpace (t :: ts)
        rcases locateKeyTail_progress hs2 h with h1 | h1
        · left
          have h2 : (trimLeftF isSpace (t :: ts)).length ≤ (t :: ts).length :=
            trimLeftF_length_le _ _
          have h3 : (t :: ts).length = (c :: cs).length - 6 := by
            rw [← hd, List.length_drop]
          omega
        · left
          rw [h1]
          have h2 : (trimLeftF isSpace (t :: ts)).length ≤ (t :: ts).length :=
            trimLeftF_length_le _ _
          have h3 : (t :: ts).length = (c :: cs).length - 6 := by
            rw [← hd, List.length_drop]
          omega
      · rw [if_neg hst] at h
        exact locateKeyTail_progress htrim h
  · rw [if_neg hexp] at h
    exact locateKeyTail_progress htrim h

theorem extractUnquoted_rest {src : List Char} {e : Nat} {vars : KVMap}
    {v rest : List Char} (h : extractUnquoted src e vars = .ok (v, rest)) :
    rest = src.drop e := by
  rw [extractUnquoted] at h
  by_cases h0 : (src.take e).length = 0
  · rw [if_pos h0] at h
    exact (Prod.mk.injEq .. ▸ Except.ok.inj h).2.symm
  · rw [if_neg h0] at h
    exact (Prod.mk.injEq .. ▸ Except.ok.inj h).2.symm

theorem extractVarValue_progress {src : List Char} {vars : KVMap}
    {v rest : List Char} (h : extractVarValue src vars = .ok (v, rest)) :
    rest.length ≤ src.length ∧
      (∀ c cs, src = c :: cs → isLineEnd c = false → rest.length < src.length) := by
  rw [extractVarValue] at h
  rcases hq : hasQuoteMark src with _ | quote
  · rw [hq] at h
    dsimp only at h
    rcases hfi : findIdxOrNone isLineEnd src with _ | endOfLine
    · rw [hfi] at h
      by_cases hlen : src.length = 0
      · rw [if_pos hlen] at h
        obtain ⟨-, hrest⟩ := Prod.mk.injEq .. ▸ Except.ok.inj h
        constructor
        · rw [← hrest]; simp
        · intro c cs hsrc _
          rw [hsrc] at hlen
          simp at hlen
      · rw [if_neg hlen] at h
        have hr := extractUnquoted_rest h
        constructor
        · rw [hr, List.length_drop]; omega
        · intro c cs hsrc _
          rw [hr, List.length_drop]
          have : src.length ≠ 0 := hlen
          omega
    · rw [hfi] at h
      have hr := extractUnquoted_rest h
      constructor
      · rw [hr, List.length_drop]; omega
      · intro c cs hsrc hle
        have h1 : 1 ≤ endOfLine := by
          rw [hsrc] at hfi
          exact findIdxOrNone_pos hfi hle
        have h2 : src.length ≠ 0 := by rw [hsrc]; simp
        rw [hr, List.length_drop]
        omega
  · rw [hq] at h
    dsimp only at h
    have hne : src ≠ [] := by
      intro h0
      rw [h0] at hq
      simp [hasQuoteMark] at hq
    rcases hfc : findClosing quote src with _ | i
    · rw [hfc] at h
      exact absurd h (by simp)
    · rw [hfc] at h
      obtain ⟨-, hrest⟩ := Prod.mk.injEq .. ▸ Except.ok.inj h
      have hl : 1 ≤ src.length := by
        rcases src with _ | ⟨c, cs⟩
        · exact absurd rfl hne
        · simp
      constructor
      · rw [← hrest, List.length_drop]; omega
      · intro c cs hsrc _
        rw [← hrest, List.length_drop]
        omega

/-! Every iteration of the statement loop strictly shrinks the
remainder, so the loop's fuel is irrelevant once it exceeds the buffer
length (the embedding computes what the source's unbounded loop does). -/

theorem parseIter_progress {cutset stmt k left v rest : List Char} {out : KVMap}
    (h1 : getStatementStart cutset = some stmt)
    (h2 : locateKeyName stmt = .ok (k, left))
    (h3 : extractVarValue left out = .ok (v, rest)) :
    rest.length < cutset.length := by
  obtain ⟨⟨c, cs, rfl, hcsp⟩, hlen⟩ := getStatementStart_shape h1
  have hsp : isSpace c = false := by
    cases h' : isSpace c
    · rfl
    · have hu := isSpace_unicode h'
      rw [hcsp] at hu
      exact absurd hu (by simp)
  rcases locateKeyName_progress hsp h2 with hB | hB
  · have hC := (extractVarValue_progress h3).1
    omega
  · subst hB
    have hle : isLineEnd c = false := by
      cases h' : isLineEnd c
      · rfl
      · have hu := isLineEnd_unicode h'
        rw [hcsp] at hu
        exact absurd hu (by simp)
    have hC := (extractVarValue_progress h3).2 c cs rfl hle
    omega

theorem parseLoopF_fuel_irrelevant :
    ∀ {fuel fuel' : Nat} {cutset : List Char} {out : KVMap},
      cutset.length < fuel → cutset.length < fuel' →
      parseLoopF fuel cutset out = parseLoopF fuel' cutset out := by
  intro fuel
  induction fuel with
  | zero => intro fuel' cutset out h _; omega
  | succ n ih =>
    intro fuel' cutset out h h'
    rcases fuel' with _ | m
    · omega
    · rw [parseLoopF, parseLoopF]
      rcases hg : getStatementStart cutset with _ | stmt
      · rfl
      · dsimp only
        rcases hk : locateKeyName stmt with e | ⟨key, left⟩
        · rfl
        · dsimp only
          rcases he : extractVarValue left out with e | ⟨value, rest⟩
          · rfl
          · dsimp only
            have hP := parseIter_progress hg hk he
            exact ih (by omega) (by omega)

theorem parseLoop_eq_parseLoopF {fuel : Nat} {cutset : List Char} {out : KVMap}
    (h : cutset.length < fuel) : parseLoop cutset out = parseLoopF fuel cutset out :=
  parseLoopF_fuel_irrelevant (by omega) h

/-! The per-file map never holds two entries for the same key. -/

theorem parseLoopF_nodup :
    ∀ {fuel : Nat} {cutset : List Char} {out : KVMap},
      (out.map Prod.fst).Nodup → (((parseLoopF fuel cutset out).1).map Prod.fst).Nodup := by
  intro fuel
  induction fuel with
  | zero => intro cutset out h; exact h
  | succ n ih =>
    intro cutset out h
    rw [parseLoopF]
    rcases hg : getStatementStart cutset with _ | stmt
    · exact h
    · dsimp only
      rcases hk : locateKeyName stmt with e | ⟨key, left⟩
      · exact h
      · dsimp only
        rcases he : extractVarValue left out with e | ⟨value, rest⟩
        · exact h
        · exact ih (mapSet_keys_nodup h)

theorem readFile_nodup (fs : FS) (f : List Char) :
    (((readFile fs f).1).map Prod.fst).Nodup := by
  rw [readFile]
  rcases hf : fs f with _ | e | e | content
  · simp
  · simp
  · simp
  · exact parseLoopF_nodup (by simp)

/-! Lookup behaviour of the merge into the process store. -/

theorem mergeLayer_mem {orig : List (List Char)} {k : List Char}
    (hk : k ∈ orig) :
    ∀ {m : KVMap} {s : KVMap}, envLookup (mergeLayer orig m s) k = envLookup s k := by
  intro m
  induction m with
  | nil => intro s; rfl
  | cons kv m' ih =>
    intro s
    obtain ⟨k0, v0⟩ := kv
    rw [mergeLayer]
    rw [ih]
    by_cases h0 : k0 ∈ orig
    · rw [if_pos h0]
    · rw [if_neg h0]
      have hne : k ≠ k0 := fun he => h0 (he ▸ hk)
      exact envLookup_mapSet_ne s v0 hne

theorem mergeLayer_not_mem {orig : List (List Char)} {k : List Char}
    (hk : k ∉ orig) :
    ∀ {m : KVMap} {s : KVMap}, (m.map Prod.fst).Nodup →
      envLookup (mergeLayer orig m s) k = Option.or (envLookup m k) (envLookup s k) := by
  intro m
  induction m with
  | nil =>
    intro s _
    rw [mergeLayer, envLookup, Option.none_or]
  | cons kv m' ih =>
    intro s hnd
    obtain ⟨k0, v0⟩ := kv
    simp only [List.map_cons, List.nodup_cons] at hnd
    rw [mergeLayer]
    by_cases h0 : k0 = k
    · subst h0
      rw [if_neg hk, ih hnd.2]
      rw [envLookup_not_mem hnd.1, Option.none_or, envLookup_mapSet_self]
      rw [envLookup]
      simp
    · have hlk : envLookup (if k0 ∈ orig then s else mapSet s k0 v0) k = envLookup s k := by
        by_cases ho : k0 ∈ orig
        · rw [if_pos ho]
        · rw [if_neg ho]
          exact envLookup_mapSet_ne s v0 (fun he => h0 he.symm)
      rw [ih hnd.2, hlk]
      rw [envLookup, if_neg h0]

theorem mergeStep_mem {orig : List (List Char)} {fs : FS} {path : List Char}
    {s : KVMap} {k : List Char} (hk : k ∈ orig) :
    envLookup (mergeStep orig fs path s).1 k = envLookup s k := by
  rw [mergeStep]
  rcases hr : readFile fs path with ⟨m, e⟩
  rcases e with _ | e
  · exact mergeLayer_mem hk
  · rfl

theorem appEnv_lookup_ne {s : KVMap} {k : List Char} (h : k ≠ EnvKey) :
    envLookup (appEnv s).2 k = envLookup s k := by
  rw [appEnv]
  by_cases he : mapGet s EnvKey = []
  · rw [if_pos he]
    exact envLookup_mapSet_ne s DefaultEnv h
  · rw [if_neg he]

theorem appEnv_of_nonempty {s : KVMap} (h : mapGet s EnvKey ≠ []) :
    appEnv s = (mapGet s EnvKey, s) := by
  rw [appEnv, if_neg h]

/-! Facts about the variable-expansion scan. -/

theorem takeWhile_append_all {p : Char → Bool} :
    ∀ {xs : List Char} (ys : List Char), (∀ x ∈ xs, p x = true) →
      (xs ++ ys).takeWhile p = xs ++ ys.takeWhile p := by
  intro xs
  induction xs with
  | nil => intro ys _; simp
  | cons x xt ih =>
    intro ys h
    have hx : p x = true := h x (by simp)
    simp only [List.cons_append, List.takeWhile_cons, hx, if_true]
    rw [ih ys (fun c hc => h c (by simp [hc]))]

theorem dropWhile_append_all {p : Char → Bool} :
    ∀ {xs : List Char} (ys : List Char), (∀ x ∈ xs, p x = true) →
      (xs ++ ys).dropWhile p = ys.dropWhile p := by
  intro xs
  induction xs with
  | nil => intro ys _; simp
  | cons x xt ih =>
    intro ys h
    have hx : p x = true := h x (by simp)
    simp only [List.cons_append, List.dropWhile_cons, hx, if_true]
    exact ih ys (fun c hc => h c (by simp [hc]))

theorem optTok_rest_le (c : Char) (cs : List Char) :
    (optTok c cs).2.length ≤ cs.length := by
  rw [optTok.eq_def]
  rcases cs with _ | ⟨c0, t⟩
  · simp
  · dsimp only
    by_cases h : c0 = c
    · rw [if_pos h]; simp
    · rw [if_neg h]

theorem optTok_no {c c0 : Char} {t : List Char} (h : c0 ≠ c) :
    optTok c (c0 :: t) = (false, c0 :: t) := by
  rw [optTok.eq_def]
  dsimp only
  rw [if_neg h]

theorem optTok_nil (c : Char) : optTok c [] = (false, []) := rfl

theorem optTok_yes (c : Char) (t : List Char) : optTok c (c :: t) = (true, t) := by
  rw [optTok.eq_def]
  dsimp only
  rw [if_pos rfl]

theorem matchVarAfter_rest_le (cs : List Char) :
    (matchVarAfter cs).2.2.2.length ≤ cs.length := by
  rw [matchVarAfter]
  dsimp only
  calc (optTok (Char.ofNat 0x7D)
          ((optTok (Char.ofNat 0x7B) (optTok '(' cs).2).2.dropWhile isVarNameChar)).2.length
      ≤ ((optTok (Char.ofNat 0x7B) (optTok '(' cs).2).2.dropWhile isVarNameChar).length :=
        optTok_rest_le _ _
    _ ≤ (optTok (Char.ofNat 0x7B) (optTok '(' cs).2).2.length := dropWhile_length_le _ _
    _ ≤ (optTok '(' cs).2.length := optTok_rest_le _ _
    _ ≤ cs.length := optTok_rest_le _ _

theorem matchVar_rest_lt {src : List Char}
    {r : Bool × Bool × List Char × List Char × List Char}
    (h : matchVar src = some r) : r.2.2.2.2.length < src.length := by
  rw [matchVar.eq_def] at h
  rcases src with _ | ⟨c1, rest1⟩
  · exact absurd h (by simp)
  · dsimp only at h
    by_cases h1 : c1 = '\\'
    · rw [if_pos h1] at h
      rcases rest1 with _ | ⟨c2, cs⟩
      · exact absurd h (by simp)
      · dsimp only at h
        by_cases h2 : c2 = '$'
        · rw [if_pos h2] at h
          obtain rfl := Option.some.inj h
          have := matchVarAfter_rest_le cs
          simp only [List.length_cons]
          omega
        · rw [if_neg h2] at h
          exact absurd h (by simp)
    · rw [if_neg h1] at h
      by_cases h2 : c1 = '$'
      · rw [if_pos h2] at h
        obtain rfl := Option.some.inj h
        have := matchVarAfter_rest_le rest1
        simp only [List.length_cons]
        omega
      · rw [if_neg h2] at h
        exact absurd h (by simp)

theorem expandVarsF_fuel_irrelevant :
    ∀ {fuel fuel' : Nat} {src : List Char} {m : KVMap},
      src.length < fuel → src.length < fuel' →
      expandVarsF fuel src m = expandVarsF fuel' src m := by
  intro fuel
  induction fuel with
  | zero => intro fuel' src m h _; omega
  | succ n ih =>
    intro fuel' src m h h'
    rcases fuel' with _ | k
    · omega
    · rw [expandVarsF.eq_def, expandVarsF.eq_def]
      rcases src with _ | ⟨c, cs⟩
      · rfl
      · dsimp only
        have hcc : (c :: cs).length = cs.length + 1 := by simp
        rcases hm : matchVar (c :: cs) with _ | r
        · have ha : cs.length < n := by omega
          have hb : cs.length < k := by omega
          rw [ih ha hb]
        · have hlt := matchVar_rest_lt hm
          obtain ⟨bs, paren, name, matched, rest⟩ := r
          dsimp only at hlt ⊢
          have ha : rest.length < n := by omega
          have hb : rest.length < k := by omega
          rw [ih ha hb]

theorem expandVariables_eq_expandVarsF {fuel : Nat} {src : List Char} {m : KVMap}
    (h : src.length < fuel) : expandVariables src m = expandVarsF fuel src m :=
  expandVarsF_fuel_irrelevant (by omega) h

theorem matchVarAfter_plain {name rest : List Char}
    (hname : name ≠ [])
    (hchars : ∀ c ∈ name, isVarNameChar c = true)
    (hrest : ∀ r0 rs, rest = r0 :: rs → isVarNameChar r0 = false ∧ r0 ≠ Char.ofNat 0x7D) :
    matchVarAfter (name ++ rest) = (false, name, name, rest) := by
  obtain ⟨n0, ntail, rfl⟩ := List.exists_cons_of_ne_nil hname
  have hn0 : isVarNameChar n0 = true := hchars n0 (by simp)
  have hne1 : n0 ≠ '(' := by
    intro he; rw [he] at hn0; exact absurd hn0 (by decide)
  have hne2 : n0 ≠ Char.ofNat 0x7B := by
    intro he; rw [he] at hn0; exact absurd hn0 (by decide)
  have h1 : optTok '(' ((n0 :: ntail) ++ rest) = (false, (n0 :: ntail) ++ rest) := by
    rw [List.cons_append]; exact optTok_no hne1
  have h2 : optTok (Char.ofNat 0x7B) ((n0 :: ntail) ++ rest) =
      (false, (n0 :: ntail) ++ rest) := by
    rw [List.cons_append]; exact optTok_no hne2
  have htw : ((n0 :: ntail) ++ rest).takeWhile isVarNameChar = n0 :: ntail := by
    rw [takeWhile_append_all rest hchars]
    rcases hr : rest with _ | ⟨r0, rs⟩
    · simp
    · simp [List.takeWhile_cons, (hrest r0 rs hr).1]
  have hdw : ((n0 :: ntail) ++ rest).dropWhile isVarNameChar = rest := by
    rw [dropWhile_append_all rest hchars]
    rcases hr : rest with _ | ⟨r0, rs⟩
    · simp
    · simp [List.dropWhile_cons, (hrest r0 rs hr).1]
  have h4 : optTok (Char.ofNat 0x7D) rest = (false, rest) := by
    rcases hr : rest with _ | ⟨r0, rs⟩
    · exact optTok_nil _
    · exact optTok_no (hrest r0 rs hr).2
  rw [matchVarAfter]
  rw [h1]
  dsimp only
  rw [h2]
  dsimp only
  rw [htw, hdw, h4]
  simp

theorem matchVarAfter_braced {name rest : List Char}
    (hname : name ≠ [])
    (hchars : ∀ c ∈ name, isVarNameChar c = true) :
    matchVarAfter (Char.ofNat 0x7B :: (name ++ Char.ofNat 0x7D :: rest)) =
      (false, name, Char.ofNat 0x7B :: (name ++ [Char.ofNat 0x7D]), rest) := by
  have h1 : optTok '(' (Char.ofNat 0x7B :: (name ++ Char.ofNat 0x7D :: rest)) =
      (false, Char.ofNat 0x7B :: (name ++ Char.ofNat 0x7D :: rest)) :=
    optTok_no (by decide)
  have h2 : optTok (Char.ofNat 0x7B) (Char.ofNat 0x7B :: (name ++ Char.ofNat 0x7D :: rest)) =
      (true, name ++ Char.ofNat 0x7D :: rest) := optTok_yes _ _
  have hbr : isVarNameChar (Char.ofNat 0x7D) = false := by decide
  have htw : (name ++ Char.ofNat 0x7D :: rest).takeWhile isVarNameChar = name := by
    rw [takeWhile_append_all _ hchars]
    simp [List.takeWhile_cons, hbr]
  have hdw : (name ++ Char.ofNat 0x7D :: rest).dropWhile isVarNameChar =
      Char.ofNat 0x7D :: rest := by
    rw [dropWhile_append_all _ hchars]
    simp [List.dropWhile_cons, hbr]
  have h4 : optTok (Char.ofNat 0x7D) (Char.ofNat 0x7D :: rest) = (true, rest) :=
    optTok_yes _ _
  rw [matchVarAfter]
  rw [h1]
  dsimp only
  rw [h2]
  dsimp only
  rw [htw, hdw, h4]
  simp

/-! Character-set invariant of the key scan (for claim C8). -/

theorem keyScan_chars :
    ∀ {rest full : List Char} {i : Nat} {key : List Char} {off : Nat},
      full.drop i = rest →
      (∀ c ∈ full.take i, isSpace c = true ∨ c = '_' ∨ c = '.' ∨
        goIsLetter c = true ∨ goIsNumber c = true) →
      keyScan full rest i = .ok (key, off) →
      ∀ c ∈ key, isSpace c = true ∨ c = '_' ∨ c = '.' ∨
        goIsLetter c = true ∨ goIsNumber c = true := by
  intro rest
  induction rest with
  | nil =>
    intro full i key off hdrop hinv h
    rw [keyScan] at h
    obtain ⟨hk, -⟩ := Prod.mk.injEq .. ▸ Except.ok.inj h
    intro c hc
    rw [← hk] at hc
    simp at hc
  | cons c0 cs ih =>
    intro full i key off hdrop hinv h
    have hgi : full[i]? = some c0 := by
      have h0 := List.getElem?_drop full i 0
      rw [hdrop] at h0
      simpa using h0.symm
    have hdrop1 : full.drop (i + 1) = cs := by
      have h1 := List.drop_drop 1 i full
      rw [hdrop] at h1
      simpa using h1.symm
    have hmk : (isSpace c0 = true ∨ c0 = '_' ∨ c0 = '.' ∨
        goIsLetter c0 = true ∨ goIsNumber c0 = true) →
        ∀ c ∈ full.take (i + 1), isSpace c = true ∨ c = '_' ∨ c = '.' ∨
          goIsLetter c = true ∨ goIsNumber c = true := by
      intro hc0 c hc
      rw [List.take_succ, hgi] at hc
      rcases List.mem_append.mp hc with hca | hcb
      · exact hinv c hca
      · simp at hcb
        rw [hcb]
        exact hc0
    rw [keyScan] at h
    by_cases h1 : isSpace c0
    · rw [if_pos h1] at h
      exact ih hdrop1 (hmk (Or.inl h1)) h
    · rw [if_neg h1] at h
      by_cases h2 : (c0 = '=' || c0 = ':') = true
      · rw [if_pos h2] at h
        obtain ⟨hk, -⟩ := Prod.mk.injEq .. ▸ Except.ok.inj h
        intro c hc
        rw [← hk] at hc
        exact hinv c hc
      · rw [if_neg h2] at h
        by_cases h3 : c0 = '_'
        · rw [if_pos h3] at h
          exact ih hdrop1 (hmk (Or.inr (Or.inl h3))) h
        · rw [if_neg h3] at h
          by_cases h4 : (goIsLetter c0 || goIsNumber c0 || c0 = '.') = true
          · rw [if_pos h4] at h
            have hc0 : isSpace c0 = true ∨ c0 = '_' ∨ c0 = '.' ∨
                goIsLetter c0 = true ∨ goIsNumber c0 = true := by
              simp only [Bool.or_eq_true, decide_eq_true_eq] at h4
              rcases h4 with (hl | hn) | hd
              · exact Or.inr (Or.inr (Or.inr (Or.inl hl)))
              · exact Or.inr (Or.inr (Or.inr (Or.inr hn)))
              · exact Or.inr (Or.inr (Or.inl hd))
            exact ih hdrop1 (hmk hc0) h
          · rw [if_neg h4] at h
            exact absurd h (by simp)

/-! Claim theorems. -/

/-- C6 counterexample: the Scanner skips a leading newline, which is
outside the fixed seven-character whitespace set and is not the comment
marker, so the newline is not treated as the start of the next
statement as the claim requires. -/
theorem c6_counterexample :
    getStatementStart ('\n' :: "A=1".data) = some "A=1".data ∧
    getStatementStart ('\n' :: "A=1".data) ≠ some ('\n' :: "A=1".data) ∧
    isSpace '\n' = false ∧ '\n' ≠ '#' := by decide

/-- C6 (amended): the Scanner's leading-whitespace skip uses Go's
`unicode.IsSpace` (the full Unicode White_Space set, newline included),
not the fixed seven-character set: any leading character satisfying
`goIsSpaceUnicode` is skipped before the statement/comment decision is
made. -/
theorem c6_scanner_skips_unicode_space {c : Char} {src : List Char}
    (h : goIsSpaceUnicode c = true) :
    getStatementStart (c :: src) = getStatementStart src := by
  rw [getStatementStart, getStatementStart]
  have hc : (fun r => !goIsSpaceUnicode r) c = false := by simp [h]
  have hcc : (c :: src).length = src.length + 1 := by simp
  rw [gssF, gssF]
  rw [show indexOfNonSpaceChar (c :: src) = (indexOfNonSpaceChar src).map (· + 1) from by
    rw [indexOfNonSpaceChar, indexOfNonSpaceChar]; exact findIdxOrNone_cons_neg hc]
  rcases hfi : indexOfNonSpaceChar src with _ | pos
  · rfl
  · dsimp only [Option.map]
    rw [List.drop_succ_cons]
    by_cases hcm : (src.drop pos).head? = some '#'
    · rw [if_pos hcm, if_pos hcm]
      rcases hfi2 : findIdxOrNone (fun r => r = '\n') (src.drop pos) with _ | pos2
      · rfl
      · dsimp only
        have hlt := gssF_comment_progress hcm hfi2
        have hd : (src.drop pos).length ≤ src.length := by
          rw [List.length_drop]; omega
        exact gssF_fuel_irrelevant (by omega) (by omega)
    · rw [if_neg hcm, if_neg hcm]

/-- C6 witness for the amended theorem: a leading newline before a
statement is skipped. -/
theorem c6_witness : getStatementStart ('\n' :: "A=1".data) = getStatementStart "A=1".data :=
  c6_scanner_skips_unicode_space (by decide)

/-- C7 counterexample: the escape decoder does not leave `\t` as the
two literal bytes: the second replacement pass strips the backslash,
yielding the single byte `t`. -/
theorem c7_counterexample :
    expandEscapes ('a' :: '\\' :: 't' :: 'b' :: []) = "atb".data ∧
    expandEscapes ('a' :: '\\' :: 't' :: 'b' :: []) ≠ "a\\tb".data := by decide

/-- C7 (amended): inside a double-quoted value, `\n` and `\r` decode to
the control characters; a backslash before any other character except
`$` is removed with the character kept (so `\t` becomes `t`, not the
literal two bytes); `\$` alone keeps its backslash for the expansion
pass. -/
theorem c7_escape_decoding (c : Char) (hn : c ≠ 'n') (hr : c ≠ 'r')
    (hd : c ≠ '$') (hnl : c ≠ '\n') :
    expandEscapes ['\\', c] = [c] ∧
    expandEscapes "\\n".data = ['\n'] ∧
    expandEscapes "\\r".data = ['\r'] ∧
    expandEscapes "\\$".data = '\\' :: '$' :: [] := by
  refine ⟨?_, by decide, by decide, by decide⟩
  rw [expandEscapes, escPass1, if_neg hnl, if_neg hn, if_neg hr]
  rw [escPass1]
  rw [escPass2, if_neg hd]
  rw [escPass2]

/-- C7 witness for the amended theorem: `\t` decodes to the single
character `t`. -/
theorem c7_witness : expandEscapes ['\\', 't'] = ['t'] ∧
    expandEscapes "\\n".data = ['\n'] ∧
    expandEscapes "\\r".data = ['\r'] ∧
    expandEscapes "\\$".data = '\\' :: '$' :: [] :=
  c7_escape_decoding 't' (by decide) (by decide) (by decide) (by decide)

/-- C8 counterexample: a successful run of the key lexer can return a
key containing a space (`A B=1`) and even the empty key (`=1`), so not
every returned key matches `[A-Za-z0-9_.]+`. -/
theorem c8_counterexample :
    locateKeyName "A B=1".data = .ok ("A B".data, "1".data) ∧
    locateKeyName "=1".data = .ok ([], "1".data) ∧
    ' ' ∈ "A B".data := by decide

/-- C8 (amended): every key returned by a successful run of the key
lexer is a possibly empty string each of whose characters is either an
accepted name character (`_`, `.`, or a character that Go's tables
class as a letter or a number — not only the ASCII ranges) or an
embedded whitespace character from the fixed set (interior whitespace
is skipped in place by the scan, and only trailing whitespace is
trimmed from the key). -/
theorem c8_key_charset {src0 k rest : List Char}
    (h : locateKeyName src0 = .ok (k, rest)) :
    ∀ c ∈ k, isSpace c = true ∨ c = '_' ∨ c = '.' ∨
      goIsLetter c = true ∨ goIsNumber c = true := by
  rw [locateKeyName] at h
  revert h
  generalize stripExport (trimLeftF isSpace src0) = src
  intro h
  rw [locateKeyTail] at h
  rcases hks : keyScan src src 0 with e | ⟨key, off⟩
  · rw [hks] at h
    exact absurd h (by simp)
  · rw [hks] at h
    dsimp only at h
    by_cases hlen : src.length = 0
    · rw [if_pos hlen] at h
      exact absurd h (by simp)
    · rw [if_neg hlen] at h
      obtain ⟨hk, -⟩ := Prod.mk.injEq .. ▸ Except.ok.inj h
      intro c hc
      rw [← hk] at hc
      exact keyScan_chars (by simp) (by simp) hks c (mem_trimRightF hc)

/-- C8 witness for the amended theorem: the key `K` of `K=1` consists
of accepted characters. -/
theorem c8_witness : isSpace 'K' = true ∨ 'K' = '_' ∨ 'K' = '.' ∨
    goIsLetter 'K' = true ∨ goIsNumber 'K' = true :=
  @c8_key_charset "K=1".data "K".data "1".data (by decide) 'K' (by decide)

/-- C9: parsing `KEY="a\nb"` yields a value with a literal newline
between `a` and `b`, while parsing the single-quoted `KEY='a\nb'`
yields the four characters `a`, backslash, `n`, `b` verbatim. -/
theorem c9_quote_roundtrip :
    readFile (fun _ => FSResult.ok "KEY=\"a\\nb\"".data) ".env".data =
      ([("KEY".data, 'a' :: '\n' :: 'b' :: [])], none) ∧
    readFile (fun _ => FSResult.ok "KEY='a\\nb'".data) ".env".data =
      ([("KEY".data, 'a' :: '\\' :: 'n' :: 'b' :: [])], none) := by decide

theorem expandVarsF_cons {fuel : Nat} {c : Char} {cs : List Char} {m : KVMap}
    {bs paren : Bool} {name matched rest : List Char}
    (hm : matchVar (c :: cs) = some (bs, paren, name, matched, rest)) :
    expandVarsF (fuel + 1) (c :: cs) m =
      (if bs = true ∨ (['$'] : List Char) = ['('] then matched.drop 1
       else if name = [] then matched
       else mapGet m name) ++ expandVarsF fuel rest m := by
  rw [expandVarsF.eq_def]
  dsimp only
  rw [hm]

/-- C4: a `$NAME` or `${NAME}` reference in an expanded value is
replaced by that name's value in the supplied per-file mapping (the
`VariableContext` argument of `expandVariables`; `readFile` passes the
map built from the same file's earlier statements and nothing else),
and a name absent from that mapping contributes the empty string, with
no error possible. -/
theorem c4_expansion_uses_local_map (m : KVMap) (name rest : List Char)
    (hname : name ≠ [])
    (hchars : ∀ c ∈ name, isVarNameChar c = true)
    (hrest : ∀ r0 rs, rest = r0 :: rs → isVarNameChar r0 = false ∧ r0 ≠ Char.ofNat 0x7D) :
    expandVariables ('$' :: (name ++ rest)) m =
      mapGet m name ++ expandVariables rest m ∧
    expandVariables ('$' :: Char.ofNat 0x7B :: (name ++ Char.ofNat 0x7D :: rest)) m =
      mapGet m name ++ expandVariables rest m ∧
    (name ∉ m.map Prod.fst → mapGet m name = []) := by
  refine ⟨?_, ?_, ?_⟩
  · have hmv : matchVar ('$' :: (name ++ rest)) =
        some (false, false, name, '$' :: name, rest) := by
      rw [matchVar.eq_def]
      dsimp only
      rw [if_neg (by decide : ¬('$' : Char) = '\\'), if_pos rfl]
      rw [matchVarAfter_plain hname hchars hrest]
    rw [expandVariables, expandVarsF_cons hmv]
    rw [if_neg (by simp), if_neg hname]
    have hl : rest.length < ('$' :: (name ++ rest)).length := by
      simp only [List.length_cons, List.length_append]
      omega
    rw [← expandVariables_eq_expandVarsF hl]
  · have hmv : matchVar ('$' :: Char.ofNat 0x7B :: (name ++ Char.ofNat 0x7D :: rest)) =
        some (false, false, name,
          '$' :: Char.ofNat 0x7B :: (name ++ [Char.ofNat 0x7D]), rest) := by
      rw [matchVar.eq_def]
      dsimp only
      rw [if_neg (by decide : ¬('$' : Char) = '\\'), if_pos rfl]
      rw [matchVarAfter_braced hname hchars]
    rw [expandVariables, expandVarsF_cons hmv]
    rw [if_neg (by simp), if_neg hname]
    have hl : rest.length <
        ('$' :: Char.ofNat 0x7B :: (name ++ Char.ofNat 0x7D :: rest)).length := by
      simp only [List.length_cons, List.length_append]
      omega
    rw [← expandVariables_eq_expandVarsF hl]
  · intro h
    rw [mapGet, envLookup_not_mem h]
    rfl

/-- C4 witness: expanding `$A tail` with the context mapping `A` to
`hi` yields `hi tail`, through the amended theorem applied at that
input. -/
theorem c4_witness :
    expandVariables "$A tail".data [("A".data, "hi".data)] = "hi tail".data := by
  have h := c4_expansion_uses_local_map [("A".data, "hi".data)] "A".data
    (' ' :: "tail".data) (by decide) (by decide)
    (by
      intro r0 rs hr
      injection hr with h1 h2
      subst h1
      exact ⟨by decide, by decide⟩)
  rw [show ("$A tail".data : List Char) = '$' :: ("A".data ++ (' ' :: "tail".data)) by decide]
  rw [h.1]
  decide

/-! Preservation of pre-existing variables through the loader. -/

theorem appEnv_post (s : KVMap) : mapGet (appEnv s).2 EnvKey ≠ [] := by
  rw [appEnv]
  by_cases he : mapGet s EnvKey = []
  · rw [if_pos he]
    dsimp only
    rw [mapGet, envLookup_mapSet_self]
    decide
  · rw [if_neg he]
    exact he

theorem loadEnvFrom3_preserved {fs : FS} {p : List Char} {orig : List (List Char)}
    {s2 : KVMap} {k : List Char} (hmem : k ∈ orig)
    (henv : k = EnvKey → mapGet s2 EnvKey ≠ []) :
    envLookup (loadEnvFrom3 fs p orig s2).1 k = envLookup s2 k := by
  rw [loadEnvFrom3]
  dsimp only
  have hae2 : envLookup (appEnv s2).2 k = envLookup s2 k := by
    by_cases hk : k = EnvKey
    · subst hk
      rw [appEnv_of_nonempty (henv rfl)]
    · exact appEnv_lookup_ne hk
  rcases h3 : mergeStep orig fs (p ++ ".".data ++ (appEnv s2).1) (appEnv s2).2
    with ⟨s3, e3⟩
  have hp3 : envLookup s3 k = envLookup (appEnv s2).2 k := by
    have hx : envLookup (mergeStep orig fs (p ++ ".".data ++ (appEnv s2).1)
        (appEnv s2).2).1 k = envLookup (appEnv s2).2 k := mergeStep_mem hmem
    rw [h3] at hx
    exact hx
  rcases e3 with _ | e
  · dsimp only
    have hs3K : k = EnvKey → mapGet s3 EnvKey ≠ [] := by
      intro hk
      subst hk
      rw [mapGet, hp3]
      have h1 := appEnv_post s2
      rw [mapGet] at h1
      exact h1
    have hae4 : envLookup (appEnv s3).2 k = envLookup s3 k := by
      by_cases hk : k = EnvKey
      · subst hk
        rw [appEnv_of_nonempty (hs3K rfl)]
      · exact appEnv_lookup_ne hk
    have hp4 : envLookup (mergeStep orig fs
        (p ++ ".".data ++ (appEnv s3).1 ++ ".local".data) (appEnv s3).2).1 k =
        envLookup (appEnv s3).2 k := mergeStep_mem hmem
    rw [hp4, hae4, hp3, hae2]
  · dsimp only
    rw [hp3, hae2]

theorem loadEnvWith_preserved {p : List Char} {fs : FS} {s0 : KVMap} {k : List Char}
    (hmem : k ∈ s0.map Prod.fst)
    (henv : k = EnvKey → mapGet s0 EnvKey ≠ []) :
    envLookup (loadEnvWith p fs s0).1 k = envLookup s0 k := by
  rw [loadEnvWith]
  dsimp only
  rcases h1 : mergeStep (s0.map Prod.fst) fs p s0 with ⟨s1, e1⟩
  have hp1 : envLookup s1 k = envLookup s0 k := by
    have hx : envLookup (mergeStep (s0.map Prod.fst) fs p s0).1 k = envLookup s0 k :=
      mergeStep_mem hmem
    rw [h1] at hx
    exact hx
  rcases e1 with _ | e
  · dsimp only
    rcases h2 : mergeStep (s0.map Prod.fst) fs (p ++ ".local".data) s1 with ⟨s2, e2⟩
    have hp2 : envLookup s2 k = envLookup s1 k := by
      have hx : envLookup (mergeStep (s0.map Prod.fst) fs (p ++ ".local".data) s1).1 k =
          envLookup s1 k := mergeStep_mem hmem
      rw [h2] at hx
      exact hx
    rcases e2 with _ | e
    · dsimp only
      have henv2 : k = EnvKey → mapGet s2 EnvKey ≠ [] := by
        intro hk
        subst hk
        rw [mapGet, hp2, hp1]
        have h0 := henv rfl
        rw [mapGet] at h0
        exact h0
      rw [loadEnvFrom3_preserved hmem henv2, hp2, hp1]
    · dsimp only
      rw [hp2, hp1]
  · dsimp only
    rw [hp1]

/-- C1 counterexample: when `APP_ENV` is present in the store with an
empty value before the call, `appEnv` overwrites it with the default
`dev` while building the third path, so its value after `LoadEnv` is
not its pre-call value. -/
theorem c1_counterexample :
    envLookup (loadEnv [".env".data] (fun _ => FSResult.notFound)
        [(EnvKey, [])]).1 EnvKey ≠ envLookup [(EnvKey, ([] : List Char))] EnvKey ∧
    loadEnv [".env".data] (fun _ => FSResult.notFound) [(EnvKey, [])] =
      ([(EnvKey, "dev".data)], none) := by decide

/-- C1 (amended): every variable present in the store before `LoadEnv`
keeps its pre-call value, except `APP_ENV` when it is present with an
empty value, which the lazy environment-name resolution overwrites
with the default `dev`. -/
theorem c1_preexisting_preserved (path : List (List Char)) (fs : FS) (s0 : KVMap)
    (k : List Char) (hmem : k ∈ s0.map Prod.fst)
    (henv : k = EnvKey → mapGet s0 EnvKey ≠ []) :
    envLookup (loadEnv path fs s0).1 k = envLookup s0 k :=
  loadEnvWith_preserved hmem henv

/-- C1 witness: a pre-existing variable `A=1` is untouched by a load
over an empty file system. -/
theorem c1_witness :
    envLookup (loadEnv [".env".data] (fun _ => FSResult.notFound)
        [("A".data, "1".data)]).1 "A".data =
      envLookup [("A".data, "1".data)] "A".data :=
  c1_preexisting_preserved [".env".data] (fun _ => FSResult.notFound)
    [("A".data, "1".data)] "A".data (by decide) (by decide)

/-- C3: a failing layer aborts the load at once: the error of the first
failing `readFile` is returned as is, the failing file's partially
parsed map is not merged (the store component is exactly the merges of
the earlier layers, plus the `appEnv` write-back when the failure is in
layer three or four), and earlier layers' writes are kept. -/
theorem c3_error_propagation (fs : FS) (p : List Char) (s0 : KVMap) :
    (∀ m e, readFile fs p = (m, some e) →
      loadEnv [p] fs s0 = (s0, some e)) ∧
    (∀ m1 m e, readFile fs p = (m1, none) →
      readFile fs (p ++ ".local".data) = (m, some e) →
      loadEnv [p] fs s0 = (mergeLayer (s0.map Prod.fst) m1 s0, some e)) ∧
    (∀ m1 m2 m e env3 s2a, readFile fs p = (m1, none) →
      readFile fs (p ++ ".local".data) = (m2, none) →
      appEnv (mergeLayer (s0.map Prod.fst) m2
        (mergeLayer (s0.map Prod.fst) m1 s0)) = (env3, s2a) →
      readFile fs (p ++ ".".data ++ env3) = (m, some e) →
      loadEnv [p] fs s0 = (s2a, some e)) ∧
    (∀ m1 m2 m3 m e env3 s2a env4 s3a, readFile fs p = (m1, none) →
      readFile fs (p ++ ".local".data) = (m2, none) →
      appEnv (mergeLayer (s0.map Prod.fst) m2
        (mergeLayer (s0.map Prod.fst) m1 s0)) = (env3, s2a) →
      readFile fs (p ++ ".".data ++ env3) = (m3, none) →
      appEnv (mergeLayer (s0.map Prod.fst) m3 s2a) = (env4, s3a) →
      readFile fs (p ++ ".".data ++ env4 ++ ".local".data) = (m, some e) →
      loadEnv [p] fs s0 = (s3a, some e)) := by
  refine ⟨?_, ?_, ?_, ?_⟩
  · intro m e h1
    rw [loadEnv]
    rw [loadEnvWith]
    dsimp only
    rw [mergeStep, h1]
  · intro m1 m e h1 h2
    rw [loadEnv]
    rw [loadEnvWith]
    dsimp only
    rw [mergeStep, h1]
    dsimp only
    rw [mergeStep, h2]
  · intro m1 m2 m e env3 s2a h1 h2 hA3 h3
    rw [loadEnv]
    rw [loadEnvWith]
    dsimp only
    rw [mergeStep, h1]
    dsimp only
    rw [mergeStep, h2]
    dsimp only
    rw [loadEnvFrom3]
    dsimp only
    rw [hA3]
    dsimp only
    rw [mergeStep, h3]
  · intro m1 m2 m3 m e env3 s2a env4 s3a h1 h2 hA3 h3 hA4 h4
    rw [loadEnv]
    rw [loadEnvWith]
    dsimp only
    rw [mergeStep, h1]
    dsimp only
    rw [mergeStep, h2]
    dsimp only
    rw [loadEnvFrom3]
    dsimp only
    rw [hA3]
    dsimp only
    rw [mergeStep, h3]
    dsimp only
    rw [hA4]
    dsimp only
    rw [mergeStep, h4]

/-- C3 witness: an open error on the base file is propagated and
nothing is written. -/
theorem c3_witness :
    loadEnv [".env".data] (fun _ => FSResult.openError "boom") [] =
      ([], some (Err.ioError "boom")) :=
  (c3_error_propagation (fun _ => FSResult.openError "boom") ".env".data []).1
    [] (Err.ioError "boom") (by decide)

/-- C2 counterexample: `APP_ENV` absent beforehand and defined in
layers one (`x`) and two (empty); the last defining layer gives the
empty string, but the lazy environment-name resolution then overwrites
it with `dev`, so the final value is not the last layer's value. -/
theorem c2_counterexample :
    (loadEnv [".env".data]
        (fun pa =>
          if pa = ".env".data then FSResult.ok "APP_ENV=x".data
          else if pa = ".env.local".data then FSResult.ok "APP_ENV=".data
          else FSResult.notFound) [] = ([(EnvKey, "dev".data)], none)) ∧
    readFile (fun pa =>
          if pa = ".env".data then FSResult.ok "APP_ENV=x".data
          else if pa = ".env.local".data then FSResult.ok "APP_ENV=".data
          else FSResult.notFound) ".env".data = ([(EnvKey, "x".data)], none) ∧
    readFile (fun pa =>
          if pa = ".env".data then FSResult.ok "APP_ENV=x".data
          else if pa = ".env.local".data then FSResult.ok "APP_ENV=".data
          else FSResult.notFound) ".env.local".data = ([(EnvKey, [])], none) ∧
    ("dev".data : List Char) ≠ [] := by decide

/-- C2 (amended): for a key other than `APP_ENV` that is absent from
the pre-load snapshot, the final value is the one given by the last
layer, in precedence order base, base.local, base.ENV, base.ENV.local,
that defines it (falling back to the initial store when none does);
`APP_ENV` itself is additionally overwritten with the default whenever
its value is empty at the moment the third or fourth path is built. -/
theorem c2_last_layer_wins (fs : FS) (p : List Char) (s0 : KVMap) (k : List Char)
    (m1 m2 m3 m4 : KVMap) (env3 env4 : List Char) (s2a s3a : KVMap)
    (hmem : k ∉ s0.map Prod.fst) (hk : k ≠ EnvKey)
    (h1 : readFile fs p = (m1, none))
    (h2 : readFile fs (p ++ ".local".data) = (m2, none))
    (hA3 : appEnv (mergeLayer (s0.map Prod.fst) m2
      (mergeLayer (s0.map Prod.fst) m1 s0)) = (env3, s2a))
    (h3 : readFile fs (p ++ ".".data ++ env3) = (m3, none))
    (hA4 : appEnv (mergeLayer (s0.map Prod.fst) m3 s2a) = (env4, s3a))
    (h4 : readFile fs (p ++ ".".data ++ env4 ++ ".local".data) = (m4, none)) :
    envLookup (loadEnv [p] fs s0).1 k =
      (envLookup m4 k).or ((envLookup m3 k).or ((envLookup m2 k).or
        ((envLookup m1 k).or (envLookup s0 k)))) := by
  have hn1 : (m1.map Prod.fst).Nodup := by
    have hx := readFile_nodup fs p
    rw [h1] at hx
    exact hx
  have hn2 : (m2.map Prod.fst).Nodup := by
    have hx := readFile_nodup fs (p ++ ".local".data)
    rw [h2] at hx
    exact hx
  have hn3 : (m3.map Prod.fst).Nodup := by
    have hx := readFile_nodup fs (p ++ ".".data ++ env3)
    rw [h3] at hx
    exact hx
  have hn4 : (m4.map Prod.fst).Nodup := by
    have hx := readFile_nodup fs (p ++ ".".data ++ env4 ++ ".local".data)
    rw [h4] at hx
    exact hx
  rw [loadEnv]
  rw [loadEnvWith]
  dsimp only
  rw [mergeStep, h1]
  dsimp only
  rw [mergeStep, h2]
  dsimp only
  rw [loadEnvFrom3]
  dsimp only
  rw [hA3]
  dsimp only
  rw [mergeStep, h3]
  dsimp only
  rw [hA4]
  dsimp only
  rw [mergeStep, h4]
  dsimp only
  rw [mergeLayer_not_mem hmem hn4]
  have e4 : envLookup s3a k = envLookup (mergeLayer (s0.map Prod.fst) m3 s2a) k := by
    have hx := appEnv_lookup_ne (s := mergeLayer (s0.map Prod.fst) m3 s2a) hk
    rw [hA4] at hx
    exact hx
  rw [e4, mergeLayer_not_mem hmem hn3]
  have e3 : envLookup s2a k =
      envLookup (mergeLayer (s0.map Prod.fst) m2
        (mergeLayer (s0.map Prod.fst) m1 s0)) k := by
    have hx := appEnv_lookup_ne
      (s := mergeLayer (s0.map Prod.fst) m2 (mergeLayer (s0.map Prod.fst) m1 s0)) hk
    rw [hA3] at hx
    exact hx
  rw [e3, mergeLayer_not_mem hmem hn2, mergeLayer_not_mem hmem hn1]

/-- C2 witness: with no files present the chain of layer lookups and
the final store agree on an absent key. -/
theorem c2_witness :
    envLookup (loadEnv [".env".data] (fun _ => FSResult.notFound) []).1 "K".data =
      (envLookup [] "K".data).or ((envLookup [] "K".data).or
        ((envLookup [] "K".data).or
          ((envLookup [] "K".data).or (envLookup [] "K".data)))) :=
  c2_last_layer_wins (fun _ => FSResult.notFound) ".env".data [] "K".data [] [] [] []
    "dev".data "dev".data [(EnvKey, "dev".data)] [(EnvKey, "dev".data)]
    (by decide) (by decide) (by decide) (by decide) (by decide) (by decide)
    (by decide) (by decide)

/-- C5 counterexample: with an empty pre-load store, `.env` defining
`APP_ENV=prod` makes the loader read `.env.prod` (whose `X=1` lands in
the store); had the environment name been resolved from the store
before any file was parsed it would have been `dev`, and the `dev`
files do not exist here, so no `X` could have been set. -/
theorem c5_counterexample :
    (loadEnv [".env".data]
        (fun pa =>
          if pa = ".env".data then FSResult.ok "APP_ENV=prod".data
          else if pa = ".env.prod".data then FSResult.ok "X=1".data
          else FSResult.notFound) [] =
      ([(EnvKey, "prod".data), ("X".data, "1".data)], none)) ∧
    (fun (pa : List Char) =>
          if pa = ".env".data then FSResult.ok "APP_ENV=prod".data
          else if pa = ".env.prod".data then FSResult.ok "X=1".data
          else FSResult.notFound) ".env.dev".data = FSResult.notFound ∧
    (fun (pa : List Char) =>
          if pa = ".env".data then FSResult.ok "APP_ENV=prod".data
          else if pa = ".env.prod".data then FSResult.ok "X=1".data
          else FSResult.notFound) ".env.dev.local".data = FSResult.notFound ∧
    envLookup ([] : KVMap) EnvKey = none := by decide

/-- C5 (amended): the environment name is resolved lazily: once the
first two layers have been read and merged, the rest of the load is
exactly `loadEnvFrom3` on the resulting store, and `loadEnvFrom3`
builds each of the last two paths by calling `appEnv` on the store as
it stands at that moment — so values loaded from base or base.local do
determine the names of the base.ENV files whenever `APP_ENV` was absent
from the pre-load store. -/
theorem c5_env_resolved_lazily (fs : FS) (p : List Char) (s0 : KVMap)
    (m1 m2 : KVMap)
    (h1 : readFile fs p = (m1, none))
    (h2 : readFile fs (p ++ ".local".data) = (m2, none)) :
    loadEnv [p] fs s0 = loadEnvFrom3 fs p (s0.map Prod.fst)
      (mergeLayer (s0.map Prod.fst) m2 (mergeLayer (s0.map Prod.fst) m1 s0)) := by
  rw [loadEnv]
  rw [loadEnvWith]
  dsimp only
  rw [mergeStep, h1]
  dsimp only
  rw [mergeStep, h2]

/-- C5 witness for the amended theorem, at the empty file system and
empty store. -/
theorem c5_witness :
    loadEnv [".env".data] (fun _ => FSResult.notFound) [] =
      loadEnvFrom3 (fun _ => FSResult.notFound) ".env".data
        (([] : KVMap).map Prod.fst)
        (mergeLayer (([] : KVMap).map Prod.fst) []
          (mergeLayer (([] : KVMap).map Prod.fst) [] [])) :=
  c5_env_resolved_lazily (fun _ => FSResult.notFound) ".env".data [] [] []
    (by decide) (by decide)
